import Mathlib

/-!
Shallow embedding of `src/main.rs` (crate `notes`): a melody timing and
sine-oscillator engine.

Modelling conventions:
* Rust `f32` is modelled as `ℚ` (exact rational arithmetic); decimal float
  literals of the source are taken at their decimal value.
* Rust `u64`/`u8` arithmetic wraps modulo `2^64` where the source can
  overflow; this is made explicit with `% 2^64`.
* The `f32 as i64` cast truncates toward zero (`ratTrunc`), and `i64 / 1000`
  is Rust's truncating integer division (`Int.tdiv`); `i64 as u64` is the
  two's-complement reinterpretation (`% 2^64` over `ℤ`).
* Rust's `%` on floats is the IEEE remainder with the sign of the dividend
  (`fmod`), modelled by `fRem x y = x - y * trunc (x / y)` (for `y ≠ 0`;
  the `y = 0` case, a NaN in IEEE, is outside every claim's hypotheses).
* Rust `Vec` indexing `v[i]` panics when out of bounds; it is modelled by
  the fallible `l[i]?` returning `Option`, `none` meaning a panic.
* The `&self` method `tone` is modelled in state-passing style as
  `State → value × State`, so that freedom from side effects is a statement
  (`(tone s).2 = s`) rather than a convention.
-/

/-- `f32` values, modelled exactly as rationals. -/
abbrev F32 := ℚ

/-- `static A_IN_HZ: AbsoluteFrequency = 440.0;` -/
def A_IN_HZ : F32 := 440

/-- The `f32` value of `std::f32::consts::PI` (the IEEE-754 single nearest
to π, `13176795 / 2^22`). -/
def PI32 : F32 := 13176795 / 4194304

/-- `pub enum ToneLength` — the closed set of duration categories. -/
inductive ToneLength where
  | Four
  | FourDot
  | Two
  | TwoDot
  | Full
  | FullDot
  | Half
  | HalfDot
  | Quarter
  | QuarterDot
  | Octet
deriving DecidableEq

/-- `pub struct Note` -/
structure Note where
  pitch_relative_to_a : F32
  length : ToneLength
deriving DecidableEq

/-- `impl Note { pub fn beats(self) -> f32 }` — the exhaustive match on
`self.length`. Source literals: `0.25 + 0.0125` for `QuarterDot`,
`0.0125` for `Octet`. -/
def Note.beats (n : Note) : F32 :=
  match n.length with
  | ToneLength.Four => 4
  | ToneLength.FourDot => 6
  | ToneLength.Two => 2
  | ToneLength.TwoDot => 3
  | ToneLength.Full => 1
  | ToneLength.FullDot => 15 / 10
  | ToneLength.Half => 5 / 10
  | ToneLength.HalfDot => 75 / 100
  | ToneLength.Quarter => 25 / 100
  | ToneLength.QuarterDot => 25 / 100 + 125 / 10000
  | ToneLength.Octet => 125 / 10000

/-- `pub struct Melody { pub melody: Vec<Note> }` -/
structure Melody where
  melody : List Note
deriving DecidableEq

/-- `fn current_beat_number(time: SECONDS, bpm: BEATS_PER_MINUTE) -> f32`:
`(time * bpm as u64 / 60) as f32`. The `u64` product wraps modulo `2^64`;
`/ 60` is truncating natural division; the result is converted to float. -/
def current_beat_number (time : ℕ) (bpm : ℕ) : F32 :=
  ((time * bpm % 2 ^ 64 / 60 : ℕ) : F32)

/-- `fn beat_to_note(&self, time_in_beat: f32) -> usize`: running prefix
sums of the notes' beat lengths (the `scan`), then a fold counting how many
prefix sums are `<= time_in_beat`. -/
def Melody.beat_to_note (m : Melody) (time_in_beat : F32) : ℕ :=
  let beats : List F32 :=
    (m.melody.scanl (fun last_beat x => last_beat + x.beats) 0).tail
  let too_early :=
    (beats.map (fun x => decide (x ≤ time_in_beat))).foldl
      (fun acc x => if x then acc + 1 else acc) 0
  too_early

/-- `pub fn pitch_at(&self, time: SECONDS, bpm: BEATS_PER_MINUTE) -> f32`:
`self.melody[self.beat_to_note(current_beat_number(time, bpm))]
  .pitch_relative_to_a`.
The unchecked `Vec` index is modelled by `[·]?`; `none` is the panic. -/
def Melody.pitch_at (m : Melody) (time : ℕ) (bpm : ℕ) : Option F32 :=
  (m.melody[m.beat_to_note (current_beat_number time bpm)]?).map
    Note.pitch_relative_to_a

/-- `pub struct SampleRequestOptions` -/
structure SampleRequestOptions where
  sample_rate : F32
  sample_clock : F32
  nchannels : ℕ
  note : Note
  melody : Melody
deriving DecidableEq

/-- Truncation toward zero, the semantics of Rust's `f32 as i64` cast
(for values within the `i64` range). -/
def ratTrunc (q : F32) : ℤ :=
  if 0 ≤ q then ⌊q⌋ else ⌈q⌉

/-- Rust `%` on `f32`: IEEE `fmod`, remainder with the sign of the
dividend: `x - y * trunc (x / y)` (meaningful for `y ≠ 0`). -/
def fRem (x y : F32) : F32 :=
  x - y * (ratTrunc (x / y) : F32)

/-- The elapsed-time value `tone` derives from the clock:
`(self.sample_clock as i64 / 1000) as u64`. -/
def SampleRequestOptions.time_in_seconds (o : SampleRequestOptions) : ℕ :=
  (((ratTrunc o.sample_clock).tdiv 1000) % 2 ^ 64).toNat

/-- `fn tone(&self) -> f32`, in state-passing style and parametric in the
`f32` sine function `sinF`. The source: `let bpm = 2;` then
`(sample_clock * melody.pitch_at(time_in_seconds, bpm) * A_IN_HZ * 2.0 * PI
/ sample_rate).sin()`. `&self` cannot mutate, so the returned state is the
input state; the `Option` propagates the possible `pitch_at` panic. -/
def SampleRequestOptions.tone (sinF : F32 → F32) (o : SampleRequestOptions) :
    Option F32 × SampleRequestOptions :=
  ((o.melody.pitch_at o.time_in_seconds 2).map
    (fun p => sinF (o.sample_clock * p * A_IN_HZ * 2 * PI32 / o.sample_rate)),
   o)

/-- `fn tick(&mut self)`: `self.sample_clock = (self.sample_clock + 1.0) %
self.sample_rate;` -/
def SampleRequestOptions.tick (o : SampleRequestOptions) :
    SampleRequestOptions :=
  { o with sample_clock := fRem (o.sample_clock + 1) o.sample_rate }

/-- `fn sample_next(o: &mut SampleRequestOptions) -> f32`:
`o.tick(); o.tone()`. -/
def sample_next (sinF : F32 → F32) (o : SampleRequestOptions) :
    Option F32 × SampleRequestOptions :=
  let o1 := o.tick
  ((SampleRequestOptions.tone sinF o1).1, (SampleRequestOptions.tone sinF o1).2)

/-- The state transition of one `sample_next` call. -/
def sampleStep (sinF : F32 → F32) (o : SampleRequestOptions) :
    SampleRequestOptions :=
  (sample_next sinF o).2

/-- `my_note` as built in `stream_make`. -/
def my_note : Note :=
  { pitch_relative_to_a := 12 / 10, length := ToneLength.Full }

/-- `my_melody` as built in `stream_make`: two `Full` notes with pitches
`1.0` and `2.0`. -/
def my_melody : Melody :=
  { melody :=
      [ { pitch_relative_to_a := 1, length := ToneLength.Full },
        { pitch_relative_to_a := 2, length := ToneLength.Full } ] }

/-- The `SampleRequestOptions` value constructed in `stream_make`:
`sample_clock = 0f32`, the device's `sample_rate` and `nchannels`, and the
fixed note and melody. -/
def initState (sample_rate : F32) (nchannels : ℕ) : SampleRequestOptions :=
  { sample_rate := sample_rate
    sample_clock := 0
    nchannels := nchannels
    note := my_note
    melody := my_melody }

/-- Modelled from the spec (§4.2 step 2/3), for the refinement claim C3:
`cum[i] = cum[i-1] + beats(note[i])`, `cum[-1] = 0`, reading a missing
note as beat length 0 (the spec only uses `i < length`). -/
def specCum (notes : List Note) : ℕ → F32
  | 0 => ((notes[0]?).map Note.beats).getD 0
  | i + 1 => specCum notes i + ((notes[i + 1]?).map Note.beats).getD 0

/-- Modelled from the spec (§4.2 step 3), for the refinement claim C3: the
active note index is the count of indices `i` with `cum[i] <= current_beat`. -/
def specActiveIndex (m : Melody) (current_beat : F32) : ℕ :=
  ((List.range m.melody.length).filter
    (fun i => decide (specCum m.melody i ≤ current_beat))).length

/-- Running prefix sums of the notes' beat lengths starting from
accumulator `c` (the value list produced by the `scan` in
`beat_to_note`). -/
def cumList (c : F32) : List Note → List F32
  | [] => []
  | x :: xs => (c + x.beats) :: cumList (c + x.beats) xs

/-- Every `beats` value of the closed `ToneLength` set is positive. -/
theorem beats_pos (n : Note) : 0 < n.beats := by
  rcases n with ⟨p, l⟩
  cases l <;> norm_num [Note.beats]

/-- Truncation of a nonnegative rational is its floor. -/
theorem ratTrunc_of_nonneg (q : F32) (h : 0 ≤ q) : ratTrunc q = ⌊q⌋ :=
  if_pos h

/-- For nonnegative dividend and positive divisor, `fRem` is the scaled
fractional part of the quotient. -/
theorem fRem_eq_fract (x r : F32) (hx : 0 ≤ x) (hr : 0 < r) :
    fRem x r = r * Int.fract (x / r) := by
  rw [fRem, ratTrunc_of_nonneg _ (div_nonneg hx hr.le), Int.fract, mul_sub]
  have hrr : r * (x / r) = x := by
    field_simp
  rw [hrr]

/-- `fRem` of a nonnegative value by a positive modulus is nonnegative. -/
theorem fRem_nonneg (x r : F32) (hx : 0 ≤ x) (hr : 0 < r) : 0 ≤ fRem x r := by
  rw [fRem_eq_fract x r hx hr]
  exact mul_nonneg hr.le (Int.fract_nonneg _)

/-- `fRem` of a nonnegative value by a positive modulus is below the
modulus. -/
theorem fRem_lt (x r : F32) (hx : 0 ≤ x) (hr : 0 < r) : fRem x r < r := by
  rw [fRem_eq_fract x r hx hr]
  calc r * Int.fract (x / r) < r * 1 :=
        mul_lt_mul_of_pos_left (Int.fract_lt_one _) hr
    _ = r := mul_one r

/-- `fRem` is the identity below the modulus. -/
theorem fRem_of_lt (x r : F32) (hx : 0 ≤ x) (hxr : x < r) : fRem x r = x := by
  have hr : 0 < r := lt_of_le_of_lt hx hxr
  rw [fRem, ratTrunc_of_nonneg _ (div_nonneg hx hr.le)]
  have h0 : ⌊x / r⌋ = 0 :=
    Int.floor_eq_zero_iff.2 ⟨div_nonneg hx hr.le, (div_lt_one hr).2 hxr⟩
  rw [h0]
  simp

/-- `fRem` of the modulus by itself is zero. -/
theorem fRem_self (r : F32) (hr : 0 < r) : fRem r r = 0 := by
  have h1 : r / r = 1 := div_self (ne_of_gt hr)
  rw [fRem, h1, ratTrunc]
  norm_num

/-- `tick` keeps the sample rate, the channel count, the note and the
melody; only the clock moves. -/
theorem tick_fields (o : SampleRequestOptions) :
    o.tick.sample_rate = o.sample_rate ∧ o.tick.nchannels = o.nchannels ∧
      o.tick.note = o.note ∧ o.tick.melody = o.melody :=
  ⟨rfl, rfl, rfl, rfl⟩

/-- One `tick` from an integer clock value `k` below an integer rate `n`:
the clock becomes `k + 1`, wrapped to `0` when it reaches `n`. -/
theorem tick_int_clock (o : SampleRequestOptions) (k n : ℕ) (hn : 0 < n)
    (hr : o.sample_rate = (n : F32)) (hc : o.sample_clock = (k : F32))
    (hk : k < n) :
    o.tick.sample_clock = (((k + 1) % n : ℕ) : F32) := by
  have hstep : o.tick.sample_clock = fRem ((k : F32) + 1) (n : F32) := by
    rw [SampleRequestOptions.tick]
    simp [hr, hc]
  rcases Nat.lt_or_ge (k + 1) n with h | h
  · have : fRem ((k : F32) + 1) (n : F32) = (k : F32) + 1 := by
      apply fRem_of_lt
      · positivity
      · exact_mod_cast h
    rw [hstep, this, Nat.mod_eq_of_lt h]
    push_cast
    ring
  · have hkn : k + 1 = n := by omega
    have : fRem ((k : F32) + 1) (n : F32) = 0 := by
      have hcast : (k : F32) + 1 = (n : F32) := by
        exact_mod_cast congrArg (Nat.cast : ℕ → F32) hkn
      rw [hcast]
      exact fRem_self _ (by exact_mod_cast hn)
    rw [hstep, this, hkn, Nat.mod_self]
    simp

/-- Iterating `tick` from clock `0` with an integer rate `n` keeps the
rate and counts the clock modulo `n`. -/
theorem tick_iterate_clock (n : ℕ) (hn : 0 < n) (o : SampleRequestOptions)
    (hr : o.sample_rate = (n : F32)) (hc : o.sample_clock = 0) :
    ∀ k : ℕ, (SampleRequestOptions.tick^[k] o).sample_clock =
        ((k % n : ℕ) : F32) ∧
      (SampleRequestOptions.tick^[k] o).sample_rate = (n : F32) := by
  intro k
  induction k with
  | zero =>
    refine ⟨?_, hr⟩
    simpa [Nat.zero_mod] using hc
  | succ k ih =>
    rw [Function.iterate_succ_apply']
    constructor
    · have := tick_int_clock (SampleRequestOptions.tick^[k] o) (k % n) n hn
        ih.2 ih.1 (Nat.mod_lt _ hn)
      have hmod : (k % n + 1) % n = (k + 1) % n := Nat.mod_add_mod k n 1
      rw [this, hmod]
    · rw [(tick_fields _).1, ih.2]

/-- C5: `tick` performs `sample_clock = (sample_clock + 1) mod
sample_rate` (IEEE float remainder), and for a positive integer
sample rate `n`, starting from clock `0`, exactly `n` consecutive `tick`
calls return the clock to `0`. -/
theorem C5_tick_modular (n : ℕ) (o : SampleRequestOptions) (hn : 0 < n)
    (hr : o.sample_rate = (n : F32)) (hc : o.sample_clock = 0) :
    o.tick = { o with sample_clock := fRem (o.sample_clock + 1) o.sample_rate } ∧
    (SampleRequestOptions.tick^[n] o).sample_clock = 0 := by
  refine ⟨rfl, ?_⟩
  rw [(tick_iterate_clock n hn o hr hc n).1, Nat.mod_self]
  simp

/-- C5 witness at rate 2: two ticks from clock 0 come back to 0. -/
theorem C5_tick_modular_witness :
    (SampleRequestOptions.tick^[2] (initState 2 1)).sample_clock = 0 :=
  (C5_tick_modular 2 (initState 2 1) (by decide) (by simp [initState])
    (by simp [initState])).2

/-- C10: with a positive rate, one `tick` from a clock in `[0, rate)`
lands in `[0, rate)` again; `sample_next` is `tick` followed by the
state-preserving `tone`, so its new state satisfies the same bounds; the
state built in `stream_make` starts at clock `0`, so every reachable
state (any number of `sample_next` steps from it) satisfies the
invariant. -/
theorem C10_clock_invariant (sinF : F32 → F32) (o : SampleRequestOptions)
    (r : F32) (nch k : ℕ) (hr : 0 < o.sample_rate)
    (h0 : 0 ≤ o.sample_clock) (_h1 : o.sample_clock < o.sample_rate)
    (hrpos : 0 < r) :
    (0 ≤ o.tick.sample_clock ∧ o.tick.sample_clock < o.sample_rate) ∧
    ((sample_next sinF o).2 = o.tick ∧
      0 ≤ (sample_next sinF o).2.sample_clock ∧
      (sample_next sinF o).2.sample_clock < (sample_next sinF o).2.sample_rate) ∧
    (initState r nch).sample_clock = 0 ∧
    (0 ≤ ((sampleStep sinF)^[k] (initState r nch)).sample_clock ∧
      ((sampleStep sinF)^[k] (initState r nch)).sample_clock < r) := by
  have tickInv : ∀ p : SampleRequestOptions, 0 < p.sample_rate →
      0 ≤ p.sample_clock →
      0 ≤ p.tick.sample_clock ∧ p.tick.sample_clock < p.sample_rate := by
    intro p hpr hpc
    have hx : (0 : F32) ≤ p.sample_clock + 1 := by linarith
    exact ⟨fRem_nonneg _ _ hx hpr, fRem_lt _ _ hx hpr⟩
  have hstep : ∀ p : SampleRequestOptions, (sample_next sinF p).2 = p.tick :=
    fun p => rfl
  refine ⟨tickInv o hr h0, ⟨hstep o, ?_⟩, rfl, ?_⟩
  · rw [hstep o, (tick_fields o).1]
    exact tickInv o hr h0
  · induction k with
    | zero => exact ⟨le_refl 0, hrpos⟩
    | succ k ih =>
      rw [Function.iterate_succ_apply']
      have hrate : ∀ j : ℕ,
          ((sampleStep sinF)^[j] (initState r nch)).sample_rate = r := by
        intro j
        induction j with
        | zero => rfl
        | succ j ihj =>
          rw [Function.iterate_succ_apply']
          show ((sampleStep sinF) _).sample_rate = r
          rw [show ∀ p : SampleRequestOptions,
              (sampleStep sinF p).sample_rate = p.sample_rate from fun p => rfl]
          exact ihj
      have := tickInv ((sampleStep sinF)^[k] (initState r nch))
        (by rw [hrate k]; exact hrpos) ih.1
      show 0 ≤ (sampleStep sinF _).sample_clock ∧
        (sampleStep sinF _).sample_clock < r
      rw [show ∀ p : SampleRequestOptions,
          (sampleStep sinF p).sample_clock = p.tick.sample_clock from
          fun p => rfl]
      exact ⟨this.1, lt_of_lt_of_eq this.2 (hrate k)⟩

/-- C10 witness at rate 2, three steps. -/
theorem C10_clock_invariant_witness :
    (0 ≤ (initState 2 1).tick.sample_clock ∧
      (initState 2 1).tick.sample_clock < (initState 2 1).sample_rate) ∧
    ((sample_next id (initState 2 1)).2 = (initState 2 1).tick ∧
      0 ≤ (sample_next id (initState 2 1)).2.sample_clock ∧
      (sample_next id (initState 2 1)).2.sample_clock <
        (sample_next id (initState 2 1)).2.sample_rate) ∧
    (initState 2 1).sample_clock = 0 ∧
    (0 ≤ ((sampleStep id)^[3] (initState 2 1)).sample_clock ∧
      ((sampleStep id)^[3] (initState 2 1)).sample_clock < 2) :=
  C10_clock_invariant id (initState 2 1) 2 1 3 (by simp [initState])
    (by simp [initState]) (by simp [initState]) zero_lt_two

/-- For a one-note melody the note lookup counts the single prefix sum. -/
theorem beat_to_note_single (x : Note) (b : F32) :
    (Melody.mk [x]).beat_to_note b = if x.beats ≤ b then 1 else 0 := by
  by_cases h : x.beats ≤ b
  · simp [Melody.beat_to_note, List.scanl, h]
  · simp [Melody.beat_to_note, List.scanl, h]

/-- For a nonnegative clock below `2^64`, the elapsed-time value of
`tone` is the floored clock divided by the fixed scale factor `1000`. -/
theorem time_in_seconds_eq (o : SampleRequestOptions)
    (h0 : 0 ≤ o.sample_clock) (h1 : o.sample_clock < 2 ^ 64) :
    o.time_in_seconds = ⌊o.sample_clock⌋.toNat / 1000 := by
  have hz : ratTrunc o.sample_clock = ((⌊o.sample_clock⌋.toNat : ℕ) : ℤ) := by
    rw [ratTrunc_of_nonneg _ h0, Int.toNat_of_nonneg (Int.floor_nonneg.2 h0)]
  have htdiv : ((⌊o.sample_clock⌋.toNat : ℕ) : ℤ).tdiv 1000 =
      ((⌊o.sample_clock⌋.toNat / 1000 : ℕ) : ℤ) := rfl
  have hklt : ⌊o.sample_clock⌋.toNat / 1000 < 2 ^ 64 := by
    have hfl : ⌊o.sample_clock⌋ < (2 ^ 64 : ℤ) := by
      rw [Int.floor_lt]
      exact_mod_cast h1
    have : ⌊o.sample_clock⌋.toNat < 2 ^ 64 := by
      omega
    omega
  rw [SampleRequestOptions.time_in_seconds, hz, htdiv,
    Int.emod_eq_of_lt (by positivity) (by exact_mod_cast hklt),
    Int.toNat_natCast]

/-- C4: `tone` returns `sin(sample_clock * pitch_ratio * 440.0 * 2π /
sample_rate)` (propagating the possible `pitch_at` panic), where the pitch
ratio comes from `Melody.pitch_at` at the hardcoded tempo `bpm = 2` and at
the elapsed time obtained by dividing the truncated raw clock by the fixed
scale factor `1000`; and `tone` does not change the state. -/
theorem C4_tone_formula (sinF : F32 → F32) (o : SampleRequestOptions)
    (h0 : 0 ≤ o.sample_clock) (h1 : o.sample_clock < 2 ^ 64) :
    (SampleRequestOptions.tone sinF o).1 =
      (o.melody.pitch_at (⌊o.sample_clock⌋.toNat / 1000) 2).map
        (fun p =>
          sinF (o.sample_clock * p * A_IN_HZ * 2 * PI32 / o.sample_rate)) ∧
    (SampleRequestOptions.tone sinF o).2 = o := by
  refine ⟨?_, rfl⟩
  calc (SampleRequestOptions.tone sinF o).1
      = (o.melody.pitch_at o.time_in_seconds 2).map
          (fun p =>
            sinF (o.sample_clock * p * A_IN_HZ * 2 * PI32 / o.sample_rate)) :=
        rfl
    _ = _ := by rw [time_in_seconds_eq o h0 h1]

/-- C4 witness at the initial state (clock 0). -/
theorem C4_tone_formula_witness :
    (SampleRequestOptions.tone id (initState 2 1)).1 =
      ((initState 2 1).melody.pitch_at
        (⌊(initState 2 1).sample_clock⌋.toNat / 1000) 2).map
        (fun p => id ((initState 2 1).sample_clock * p * A_IN_HZ * 2 * PI32 /
          (initState 2 1).sample_rate)) ∧
    (SampleRequestOptions.tone id (initState 2 1)).2 = initState 2 1 :=
  C4_tone_formula id (initState 2 1) (le_refl 0) (pow_pos zero_lt_two 64)

/-- `scanl` always starts with its accumulator. -/
theorem scanl_head (l : List Note) (c : F32) :
    l.scanl (fun s x => s + x.beats) c =
      c :: (l.scanl (fun s x => s + x.beats) c).tail := by
  cases l <;> simp [List.scanl_nil, List.scanl_cons]

/-- The tail of the `scan` in `beat_to_note` is the running prefix-sum
list. -/
theorem scanl_tail_eq_cumList (l : List Note) :
    ∀ c : F32, (l.scanl (fun s x => s + x.beats) c).tail = cumList c l := by
  induction l with
  | nil => intro c; simp [List.scanl_nil, cumList]
  | cons x xs ih =>
    intro c
    rw [List.scanl_cons, List.cons_append, List.nil_append, List.tail_cons,
      scanl_head xs, show cumList c (x :: xs) =
        (c + x.beats) :: cumList (c + x.beats) xs from rfl, ih (c + x.beats)]

/-- The counting fold of `beat_to_note` counts the prefix sums that are at
most the beat position. -/
theorem foldl_count_le (b : F32) :
    ∀ (l : List F32) (acc : ℕ),
      (l.map (fun x => decide (x ≤ b))).foldl
          (fun acc x => if x then acc + 1 else acc) acc =
        acc + l.countP (fun x => decide (x ≤ b)) := by
  intro l
  induction l with
  | nil => intro acc; simp
  | cons x xs ih =>
    intro acc
    by_cases h : x ≤ b
    · simp [h, ih]
      omega
    · simp [h, ih]

/-- `beat_to_note` as a count over the prefix-sum list. -/
theorem beat_to_note_eq (m : Melody) (b : F32) :
    m.beat_to_note b =
      (cumList 0 m.melody).countP (fun x => decide (x ≤ b)) := by
  simp only [Melody.beat_to_note, scanl_tail_eq_cumList, foldl_count_le,
    Nat.zero_add]

/-- First spec prefix sum on a cons cell. -/
theorem specCum_cons_zero (x : Note) (xs : List Note) :
    specCum (x :: xs) 0 = x.beats := by
  simp [specCum]

/-- Later spec prefix sums on a cons cell shift by the head's beats. -/
theorem specCum_cons_succ (x : Note) (xs : List Note) :
    ∀ i : ℕ, specCum (x :: xs) (i + 1) = x.beats + specCum xs i := by
  intro i
  induction i with
  | zero =>
    rw [show specCum (x :: xs) (0 + 1) = specCum (x :: xs) 0 +
        (((x :: xs)[0 + 1]?).map Note.beats).getD 0 from rfl,
      specCum_cons_zero, List.getElem?_cons_succ,
      show specCum xs 0 = ((xs[0]?).map Note.beats).getD 0 from rfl]
  | succ i ih =>
    rw [show specCum (x :: xs) (i + 1 + 1) = specCum (x :: xs) (i + 1) +
        (((x :: xs)[i + 2]?).map Note.beats).getD 0 from rfl, ih,
      show specCum xs (i + 1) = specCum xs i +
        ((xs[i + 1]?).map Note.beats).getD 0 from rfl,
      List.getElem?_cons_succ, add_assoc]

/-- A note read through `getElem?` contributes a nonnegative beat
length. -/
theorem getD_beats_nonneg (l : List Note) (k : ℕ) :
    0 ≤ ((l[k]?).map Note.beats).getD 0 := by
  rcases l[k]? with _ | nt
  · simp
  · simpa using (beats_pos nt).le

/-- The spec prefix sums are monotone in the index. -/
theorem specCum_mono (l : List Note) : Monotone (specCum l) := by
  apply monotone_nat_of_le_succ
  intro i
  rw [show specCum l (i + 1) = specCum l i +
      ((l[i + 1]?).map Note.beats).getD 0 from rfl]
  have := getD_beats_nonneg l (i + 1)
  linarith

/-- Every entry of the prefix-sum list with nonnegative accumulator is
positive. -/
theorem cumList_pos : ∀ (l : List Note) (c : F32), 0 ≤ c →
    ∀ x ∈ cumList c l, 0 < x := by
  intro l
  induction l with
  | nil =>
    intro c _ x hx
    simp [cumList] at hx
  | cons y ys ih =>
    intro c hc x hx
    rw [show cumList c (y :: ys) =
        (c + y.beats) :: cumList (c + y.beats) ys from rfl] at hx
    rcases List.mem_cons.1 hx with h1 | h2
    · rw [h1]
      exact add_pos_of_nonneg_of_pos hc (beats_pos y)
    · exact ih (c + y.beats)
        (le_of_lt (add_pos_of_nonneg_of_pos hc (beats_pos y))) x h2

/-- Counting prefix sums below `b` in the value list equals counting the
indices whose spec prefix sum (shifted by the accumulator) is below
`b`. -/
theorem cumList_countP (b : F32) :
    ∀ (l : List Note) (c : F32),
      (cumList c l).countP (fun x => decide (x ≤ b)) =
        ((List.range l.length).filter
          (fun i => decide (specCum l i + c ≤ b))).length := by
  intro l
  induction l with
  | nil => intro c; simp [cumList]
  | cons x xs ih =>
    intro c
    rw [show cumList c (x :: xs) =
        (c + x.beats) :: cumList (c + x.beats) xs from rfl,
      List.countP_cons, ih (c + x.beats),
      show (x :: xs).length = xs.length + 1 from rfl,
      List.range_succ_eq_map, List.filter_cons]
    have hq0 : decide (specCum (x :: xs) 0 + c ≤ b) =
        decide (c + x.beats ≤ b) := by
      rw [specCum_cons_zero]
      exact decide_eq_decide.mpr (by constructor <;> intro h <;> linarith)
    have hfm : (List.map Nat.succ (List.range xs.length)).filter
          (fun i => decide (specCum (x :: xs) i + c ≤ b)) =
        ((List.range xs.length).filter
          (fun i => decide (specCum xs i + (c + x.beats) ≤ b))).map
            Nat.succ := by
      rw [List.filter_map]
      congr 1
      apply List.filter_congr
      intro i _
      simp only [Function.comp_apply, Nat.succ_eq_add_one, specCum_cons_succ]
      exact decide_eq_decide.mpr (by constructor <;> intro h <;> linarith)
    rw [hq0, hfm]
    by_cases h : c + x.beats ≤ b
    · simp [h]
    · simp [h]

/-- C6: `beats` is a pure total function on the closed `ToneLength` set,
mapping every variant (for any pitch) to exactly the listed positive
values: Full=1.0, FullDot=1.5, Two=2.0, TwoDot=3.0, Four=4.0, FourDot=6.0,
Half=0.5, HalfDot=0.75, Quarter=0.25, QuarterDot=0.2625, Octet=0.0125. -/
theorem C6_beats_values :
    (∀ p : F32, (Note.mk p ToneLength.Full).beats = 1) ∧
    (∀ p : F32, (Note.mk p ToneLength.FullDot).beats = 15 / 10) ∧
    (∀ p : F32, (Note.mk p ToneLength.Two).beats = 2) ∧
    (∀ p : F32, (Note.mk p ToneLength.TwoDot).beats = 3) ∧
    (∀ p : F32, (Note.mk p ToneLength.Four).beats = 4) ∧
    (∀ p : F32, (Note.mk p ToneLength.FourDot).beats = 6) ∧
    (∀ p : F32, (Note.mk p ToneLength.Half).beats = 5 / 10) ∧
    (∀ p : F32, (Note.mk p ToneLength.HalfDot).beats = 75 / 100) ∧
    (∀ p : F32, (Note.mk p ToneLength.Quarter).beats = 25 / 100) ∧
    (∀ p : F32, (Note.mk p ToneLength.QuarterDot).beats = 2625 / 10000) ∧
    (∀ p : F32, (Note.mk p ToneLength.Octet).beats = 125 / 10000) ∧
    (∀ n : Note, 0 < n.beats) := by
  have hpos : ∀ n : Note, 0 < n.beats := by
    rintro ⟨p, l⟩
    cases l <;> norm_num [Note.beats]
  refine ⟨?_, ?_, ?_, ?_, ?_, ?_, ?_, ?_, ?_, ?_, ?_, hpos⟩ <;>
    (intro p; norm_num [Note.beats])

/-- C7 counterexample: the dotted-equals-1.5-times-base law fails at
`QuarterDot`: `beats(QuarterDot) = 0.2625 ≠ 1.5 * beats(Quarter) = 0.375`. -/
theorem C7_quarterdot_not_3halves :
    ¬ ((Note.mk 1 ToneLength.QuarterDot).beats =
        15 / 10 * (Note.mk 1 ToneLength.Quarter).beats) := by
  norm_num [Note.beats]

/-- C7 (amended): for the dotted variants FullDot, TwoDot, FourDot and
HalfDot, `beats` of the dotted variant is 1.5 times `beats` of the base
variant; for QuarterDot it is instead `beats(Quarter) + 0.0125 = 0.2625`. -/
theorem C7_dotted_ratios :
    (∀ p : F32, (Note.mk p ToneLength.FullDot).beats =
      15 / 10 * (Note.mk p ToneLength.Full).beats) ∧
    (∀ p : F32, (Note.mk p ToneLength.TwoDot).beats =
      15 / 10 * (Note.mk p ToneLength.Two).beats) ∧
    (∀ p : F32, (Note.mk p ToneLength.FourDot).beats =
      15 / 10 * (Note.mk p ToneLength.Four).beats) ∧
    (∀ p : F32, (Note.mk p ToneLength.HalfDot).beats =
      15 / 10 * (Note.mk p ToneLength.Half).beats) ∧
    (∀ p : F32, (Note.mk p ToneLength.QuarterDot).beats =
      (Note.mk p ToneLength.Quarter).beats + 125 / 10000) := by
  refine ⟨?_, ?_, ?_, ?_, ?_⟩ <;> (intro p; norm_num [Note.beats])

/-- C1 evaluated at the failing input: for the one-note melody
`[{pitch 1.0, Full}]`, `pitch_at 60 1` resolves beat 1, `beat_to_note`
returns index 1 = length, and the unchecked `Vec` index is out of bounds
(`none`, a panic in the source) — the lookup is not total. -/
theorem C1_pitch_at_out_of_range :
    (Melody.mk [Note.mk 1 ToneLength.Full]).pitch_at 60 1 = none ∧
    (Melody.mk [Note.mk 1 ToneLength.Full]).beat_to_note
        (current_beat_number 60 1) =
      (Melody.mk [Note.mk 1 ToneLength.Full]).melody.length := by
  norm_num [Melody.pitch_at, Melody.beat_to_note, current_beat_number,
    Note.beats, List.scanl]

/-- C2 counterexample: for the one-note melody `[{pitch 1.0, Full}]` at
`t = 120 ≥ 0`, `bpm = 1 > 0`, `pitch_at` does not return the note's pitch:
the index is out of bounds (`none`, a panic in the source). -/
theorem C2_pitch_at_120_panics :
    (Melody.mk [Note.mk 1 ToneLength.Full]).pitch_at 120 1 = none := by
  norm_num [Melody.pitch_at, Melody.beat_to_note, current_beat_number,
    Note.beats, List.scanl]

/-- C2 (amended): for a melody of exactly one Full-length note,
`pitch_at t bpm` returns that note's pitch exactly when the wrapped
product `t * bpm mod 2^64` is below 60 (current beat number 0); otherwise
the lookup is out of bounds (a panic, `none`). -/
theorem C2_single_note_pitch_at (p : F32) (t bpm : ℕ) :
    (Melody.mk [Note.mk p ToneLength.Full]).pitch_at t bpm =
      if t * bpm % 2 ^ 64 < 60 then some p else none := by
  rw [Melody.pitch_at, beat_to_note_single]
  rcases Nat.lt_or_ge (t * bpm % 2 ^ 64) 60 with h | h
  · have h0 : t * bpm % 2 ^ 64 / 60 = 0 := Nat.div_eq_of_lt h
    rw [if_pos h, if_neg ?neg]
    case neg =>
      unfold current_beat_number
      rw [h0]
      norm_num [Note.beats]
    simp
  · have h1 : 1 ≤ t * bpm % 2 ^ 64 / 60 :=
      (Nat.one_le_div_iff (by norm_num)).2 h
    rw [if_neg (show ¬ (t * bpm % 2 ^ 64 < 60) by omega), if_pos ?pos]
    case pos =>
      unfold current_beat_number
      have hb : (Note.mk p ToneLength.Full).beats = 1 := by
        norm_num [Note.beats]
      rw [hb]
      exact_mod_cast h1
    simp

/-- C8: for the melody `[{1.0, Full}, {2.0, Full}]` at bpm 1,
`pitch_at 0 1` is note 0's pitch and `pitch_at 61 1` is note 1's pitch;
for the melody `[{1.0, Two}, {2.0, Full}]`, `pitch_at 61 1` is note 0's
pitch. -/
theorem C8_two_note_melody_resolution :
    (Melody.mk [Note.mk 1 ToneLength.Full,
        Note.mk 2 ToneLength.Full]).pitch_at 0 1 = some 1 ∧
    (Melody.mk [Note.mk 1 ToneLength.Full,
        Note.mk 2 ToneLength.Full]).pitch_at 61 1 = some 2 ∧
    (Melody.mk [Note.mk 1 ToneLength.Two,
        Note.mk 2 ToneLength.Full]).pitch_at 61 1 = some 1 := by
  refine ⟨?_, ?_, ?_⟩ <;>
    norm_num [Melody.pitch_at, Melody.beat_to_note, current_beat_number,
      Note.beats, List.scanl]

/-- C3: for every melody and beat position, `beat_to_note` equals the
spec's active-note index: the count of cumulative beat-length prefix sums
`cum[i]` (`cum[i] = cum[i-1] + beats(note[i])`, `cum[-1] = 0`) that are
`<= current_beat`; and on an exact boundary (`current_beat = cum[i]` with
`i` a valid index) the returned index is past `i`: ties advance to the
next note. -/
theorem C3_beat_to_note_counts_prefix_sums :
    (∀ (m : Melody) (b : F32), m.beat_to_note b = specActiveIndex m b) ∧
    (∀ (m : Melody) (i : ℕ), i < m.melody.length →
      i < m.beat_to_note (specCum m.melody i)) := by
  have hmain : ∀ (m : Melody) (b : F32),
      m.beat_to_note b = specActiveIndex m b := by
    intro m b
    rw [beat_to_note_eq, cumList_countP b m.melody 0, specActiveIndex]
    simp only [add_zero]
  refine ⟨hmain, ?_⟩
  intro m i hi
  rw [hmain]
  unfold specActiveIndex
  have hall : ∀ j ∈ List.range (i + 1),
      (fun j => decide (specCum m.melody j ≤ specCum m.melody i)) j = true := by
    intro j hj
    have hji : j ≤ i := Nat.lt_succ_iff.1 (List.mem_range.1 hj)
    simpa using specCum_mono m.melody hji
  calc i < i + 1 := Nat.lt_succ_self i
    _ = ((List.range (i + 1)).filter
          (fun j => decide (specCum m.melody j ≤ specCum m.melody i))).length := by
        rw [List.filter_eq_self.2 hall, List.length_range]
    _ ≤ _ :=
        List.Sublist.length_le ((List.range_sublist.2 hi).filter _)

/-- C3 witness: the two-note test melody at beat 1 (the exact boundary of
note 0). -/
theorem C3_counts_prefix_sums_witness :
    my_melody.beat_to_note 1 = specActiveIndex my_melody 1 ∧
    0 < my_melody.beat_to_note (specCum my_melody.melody 0) :=
  ⟨C3_beat_to_note_counts_prefix_sums.1 my_melody 1,
   C3_beat_to_note_counts_prefix_sums.2 my_melody 0 (by simp [my_melody])⟩

/-- C9: `current_beat_number` truncates: it is the natural-number quotient
`time * bpm / 60` (with the wrapping `u64` product) converted to float, so
the beat position is always a whole number; consequently, for every
nonempty melody (every note's duration is positive) and every `time`,
`bpm` with `time * bpm < 60`, `pitch_at` returns the first note's pitch,
regardless of the notes' lengths. -/
theorem C9_whole_beat_first_note :
    (∀ t bpm : ℕ,
      current_beat_number t bpm = ((t * bpm % 2 ^ 64 / 60 : ℕ) : F32)) ∧
    (∀ (m : Melody) (t bpm : ℕ) (h : m.melody ≠ []), t * bpm < 60 →
      m.pitch_at t bpm = some ((m.melody.head h).pitch_relative_to_a)) := by
  refine ⟨fun t bpm => rfl, ?_⟩
  intro m t bpm h hlt
  have hb : current_beat_number t bpm = 0 := by
    unfold current_beat_number
    rw [Nat.mod_eq_of_lt (lt_trans hlt (by norm_num)), Nat.div_eq_of_lt hlt]
    simp
  have hzero : m.beat_to_note 0 = 0 := by
    rw [beat_to_note_eq]
    rw [List.countP_eq_zero]
    intro a ha
    have := cumList_pos m.melody 0 (le_refl 0) a ha
    simpa using not_le_of_lt this
  rw [Melody.pitch_at, hb, hzero]
  rcases m with ⟨l⟩
  cases l with
  | nil => exact absurd rfl h
  | cons y ys => simp

/-- C9 witness: a one-note melody of length Two, `t = 59`, `bpm = 1`. -/
theorem C9_whole_beat_first_note_witness :
    current_beat_number 59 1 = ((59 * 1 % 2 ^ 64 / 60 : ℕ) : F32) ∧
    (Melody.mk [Note.mk 5 ToneLength.Two]).pitch_at 59 1 =
      some (((Melody.mk [Note.mk 5 ToneLength.Two]).melody.head
        (by simp)).pitch_relative_to_a) :=
  ⟨C9_whole_beat_first_note.1 59 1,
   C9_whole_beat_first_note.2 (Melody.mk [Note.mk 5 ToneLength.Two]) 59 1
     (by simp) (by decide)⟩
